import Mathlib

/-!
Shallow embedding of `src/play-music.c` (a command-line music launcher) and
proofs about its core components: the music-file extension check, the
directory-to-playlist builder, the Fisher-Yates shuffle, the argument parser
state machine, the child argv construction, and the `main` exit-code logic.

Conventions of the embedding:
* C strings become `String` / `List Char`.
* Machine reads that may fall outside a buffer are modelled explicitly:
  an `Option`-valued core function returns `none` on the out-of-bounds
  branch, and a separate parameter (`oob`) stands for the unspecified byte
  sequence such a read would observe, so that total functions stay faithful.
* Process-level effects (directory enumeration, regex compilation, `rand`,
  `fork` failures, the monotonic clock) become an explicit environment.
-/

namespace PlayMusic

/-- The recognized extensions table (`music_file_extensions` in the source). -/
def musicFileExtensions : List String := [".mp3", ".flac", ".wav", ".ogg"]

/-- Result of the backward scan in `isMusicFile`: the loop walks from the last
character toward the start looking for `'.'` or `'/'`.  `found p` means the
loop broke at index `p`; `exhausted` means `characters_left` reached 0 (the
pointer then sits one byte BEFORE the string); `oobRead` models a read of the
loop itself outside the string (never taken, see `extensionScan_ne_oobRead`). -/
inductive ScanResult where
  | found (p : Nat)
  | exhausted
  | oobRead
deriving DecidableEq, Repr

/-- The backward scan of `isMusicFile` (lines 106-112): with `left`
characters still to inspect, the loop looks at index `left - 1`. -/
def extensionScan (name : List Char) : Nat → ScanResult
  | 0 => .exhausted
  | left + 1 =>
    match name.get? left with
    | none => .oobRead
    | some c => if c = '.' ∨ c = '/' then .found left else extensionScan name left

/-- `isMusicFile` (lines 101-120), partial version.  After the scan,
`file_extension` points at the break position and the string from there is
compared against each recognized extension.  When the scan exhausts the
string (a name with neither `'.'` nor `'/'`), the C code calls `strcmp` on
`path - 1`, one byte before the buffer: that out-of-bounds comparison is
`none` here. -/
def isMusicFileCore (name : List Char) : Option Bool :=
  match extensionScan name name.length with
  | .found p => some (decide (String.mk (name.drop p) ∈ musicFileExtensions))
  | .exhausted => none
  | .oobRead => none

/-- Totalized `isMusicFile`: `oob` stands for whatever the undefined
out-of-bounds `strcmp` would return for a given name (it depends on the byte
stored just before the buffer, which the program does not control). -/
def isMusicFile (oob : List Char → Bool) (name : List Char) : Bool :=
  match isMusicFileCore name with
  | some b => b
  | none => oob name

/-- Modelled regex check: the compiled `--match` pattern is abstracted as a
`String → Bool` matcher (the behaviour of `regexec`); `none` means no
pattern was supplied, in which case every name passes (line 189). -/
def matchOk (matcher : Option (String → Bool)) (name : String) : Bool :=
  match matcher with
  | none => true
  | some f => f name

/-- `playlistAppendFromDirectory` (lines 168-204) restricted to its pure
content: the directory enumeration is a list of filenames in filesystem
order; surviving entries are appended in encounter order as
`path ++ "/" ++ name`. -/
def playlistAppendFromDirectory (oob : List Char → Bool)
    (matcher : Option (String → Bool)) (path : String) :
    List String → List String
  | [] => []
  | e :: es =>
    if isMusicFile oob e.toList then
      if matchOk matcher e then
        (path ++ "/" ++ e) :: playlistAppendFromDirectory oob matcher path es
      else playlistAppendFromDirectory oob matcher path es
    else playlistAppendFromDirectory oob matcher path es

/-- Characters that do not end the backward extension search. -/
def notSep (c : Char) : Bool := !(decide (c = '.' ∨ c = '/'))

/-- Spec-side notion of a filename's extension, following the spec's words:
the substring from the final `'.'` (or `'/'`) onward, or the whole name when
neither occurs. -/
def specExtension (name : String) : String :=
  let nameL := name.toList
  let tw := nameL.reverse.takeWhile notSep
  if tw.length = nameL.length then name
  else String.mk (nameL.drop (nameL.length - tw.length - 1))

/-- Spec-side membership test for the playlist: recognized extension and,
when a pattern is present, a successful match. -/
def specKeep (matcher : Option (String → Bool)) (name : String) : Bool :=
  decide (specExtension name ∈ musicFileExtensions) && matchOk matcher name

/-- Spec-side playlist for one directory: exactly the surviving entries, in
encounter order, as `path ++ "/" ++ name`. -/
def specPlaylist (matcher : Option (String → Bool)) (path : String)
    (entries : List String) : List String :=
  (entries.filter (specKeep matcher)).map (fun e => path ++ "/" ++ e)

/-! ## The argument parser (lines 222-448) -/

/-- `PARSED_ARGUMENTS_MAX_DIRECTORIES` (line 240). -/
def maxDirectories : Nat := 50

/-- `ParsedArguments` (lines 243-251); the fixed `directories` array plus its
count becomes a list whose length the append guard keeps at most 50. -/
structure ParsedArguments where
  programName : Option String := none
  dontShuffle : Bool := false
  matchPat : Option String := none
  dontRepeat : Bool := false
  dirs : List String := []
deriving DecidableEq, Repr

/-- `parsedArgumentsAppendDirectory` (lines 253-263): the
`assert(count < MAX)` aborts the process when the append would go past the
array; `none` is that aborted branch, so the out-of-bounds store itself never
happens. -/
def parsedArgumentsAppendDirectory (pa : ParsedArguments) (directory : String) :
    Option ParsedArguments :=
  if pa.dirs.length < maxDirectories then
    some { pa with dirs := pa.dirs ++ [directory] }
  else none

/-- The distinct fatal-parse-error sites, each carrying what the C code
interpolates into its diagnostic `fprintf(stderr, ...)`. -/
inductive ParseError where
  | unknownLongOption (tok : String)
  | unknownShortOption (c : Char)
  | matchShortMissingArg
  | matchLongMissingArg
deriving DecidableEq, Repr

/-- Whether an error site is the unknown-long-option one (lines 403-406),
the only fatal parse error that does not also print the short help. -/
def isUnknownLong : ParseError → Bool
  | .unknownLongOption _ => true
  | _ => false

/-- Outcome of the parser: `ok` returns the record, `helpExit` is
`exit(0)` after printing help, `errExit` is `exit(1)` after printing the
diagnostic (`shortHelp` records whether `printShortHelp` also ran), and
`assertFail` is the aborted directory-append assertion. -/
inductive ParseOutcome where
  | ok (r : ParsedArguments)
  | helpExit
  | errExit (e : ParseError) (shortHelp : Bool)
  | assertFail
deriving DecidableEq, Repr

/-- `ArgumentParserState` (lines 301-305). -/
inductive ArgumentParserState where
  | base
  | endOfOptions
  | matchPending
deriving DecidableEq, Repr

/-- What one call to `parseShortOptions` asks its caller to do.  In the C
code the function pops the following token itself through the shared
`CstrSlice`; here `needMatchArg` hands that single pop back to the caller so
that the main loop stays structurally recursive.  Note the C `while` loop
body can never reach its `++next` increment: every `switch` case returns or
exits, so only the first character of a cluster is ever interpreted. -/
inductive ShortStep where
  | done (pa : ParsedArguments)
  | needMatchArg
  | helpExit
  | errExit (e : ParseError) (shortHelp : Bool)
deriving Repr

/-- `parseShortOptions` (lines 308-356) on the cluster characters after the
leading `'-'`: empty cluster is a no-op; `'h'` prints help and exits;
`'m'` takes the remainder of the token as the pattern when non-empty and
otherwise asks for the next token; anything else is an unknown option. -/
def parseShortOptions (pa : ParsedArguments) : List Char → ShortStep
  | [] => .done pa
  | c :: rest =>
    if c = 'h' then .helpExit
    else if c = 'm' then
      if rest.isEmpty then .needMatchArg
      else .done { pa with matchPat := some (String.mk rest) }
    else .errExit (.unknownShortOption c) true

/-- What one `BASE`-state token does, computed by `baseAct`:  the
continuation choices of the `switch`-like chain at lines 378-414. -/
inductive BaseAct where
  | help
  | err (e : ParseError) (shortHelp : Bool)
  | cont (pa : ParsedArguments)
  | contMatchPending
  | contEndOfOptions
  | takeMatchArg
  | appendFailed
deriving DecidableEq, Repr

/-- Classification of one token in the `BASE` state, in the C order of
lines 381-413: empty string skipped, the five exact matches, the
`strncmp("--", ..., 2)` unknown-option check (note: no short-help hint on
that path), the single-`'-'` short-option dispatch, and otherwise a
directory append (whose `assert` failure is `appendFailed`). -/
def baseAct (pa : ParsedArguments) (next : String) : BaseAct :=
  if next = "" then .cont pa
  else if next = "--help" then .help
  else if next = "--no-shuffle" then .cont { pa with dontShuffle := true }
  else if next = "--match" then .contMatchPending
  else if next = "--no-repeat" then .cont { pa with dontRepeat := true }
  else if next = "--" then .contEndOfOptions
  else if next.toList.take 2 = ['-', '-'] then .err (.unknownLongOption next) false
  else if next.toList.head? = some '-' then
    match parseShortOptions pa next.toList.tail with
    | .done pa' => .cont pa'
    | .helpExit => .help
    | .errExit e sh => .err e sh
    | .needMatchArg => .takeMatchArg
  else
    match parsedArgumentsAppendDirectory pa next with
    | some pa' => .cont pa'
    | none => .appendFailed

/-- Resume the loop according to a `BASE` classification; the continuation
arguments are the loop re-entries for the respective transition. -/
def dispatchBase (act : BaseAct) (kcont : ParsedArguments → ParseOutcome)
    (kmatch keoo kneed : ParseOutcome) : ParseOutcome :=
  match act with
  | .help => .helpExit
  | .err e sh => .errExit e sh
  | .cont pa' => kcont pa'
  | .contMatchPending => kmatch
  | .contEndOfOptions => keoo
  | .takeMatchArg => kneed
  | .appendFailed => .assertFail

/-- Resume the loop after an `END_OF_OPTIONS` directory append. -/
def dispatchAppend (o : Option ParsedArguments)
    (k : ParsedArguments → ParseOutcome) : ParseOutcome :=
  match o with
  | some pa' => k pa'
  | none => .assertFail

/-- The main parser loop of `parseArguments` (lines 376-444), one token per
step.  The one-token lookahead in the patterns exists because the `-m`
short option without remainder pops the following token itself (via the
shared `CstrSlice`); the two token arms differ only in what that pop
yields: a fatal error on an exhausted slice, or the popped token as the
match pattern. -/
def parseLoop (state : ArgumentParserState) (pa : ParsedArguments) :
    List String → ParseOutcome
  | [] =>
    match state with
    | .matchPending => .errExit .matchLongMissingArg true
    | _ => .ok pa
  | [next] =>
    match state with
    | .base =>
      dispatchBase (baseAct pa next) (fun pa' => parseLoop .base pa' [])
        (parseLoop .matchPending pa []) (parseLoop .endOfOptions pa [])
        (.errExit .matchShortMissingArg true)
    | .endOfOptions =>
      dispatchAppend (parsedArgumentsAppendDirectory pa next)
        (fun pa' => parseLoop .endOfOptions pa' [])
    | .matchPending => parseLoop .base { pa with matchPat := some next } []
  | next :: arg :: rest' =>
    match state with
    | .base =>
      dispatchBase (baseAct pa next) (fun pa' => parseLoop .base pa' (arg :: rest'))
        (parseLoop .matchPending pa (arg :: rest'))
        (parseLoop .endOfOptions pa (arg :: rest'))
        (parseLoop .base { pa with matchPat := some arg } rest')
    | .endOfOptions =>
      dispatchAppend (parsedArgumentsAppendDirectory pa next)
        (fun pa' => parseLoop .endOfOptions pa' (arg :: rest'))
    | .matchPending => parseLoop .base { pa with matchPat := some next } (arg :: rest')

/-- `parseArguments` (lines 358-448): the first token is the program name,
the rest feed the state machine starting in `BASE`. -/
def parseArguments (argv : List String) : ParseOutcome :=
  match argv with
  | [] => parseLoop .base {} []
  | prog :: rest => parseLoop .base { programName := some prog } rest

/-! ## The shuffle (lines 206-216) -/

/-- One `rand()` call per loop iteration, modelled as a function of the
iteration index. -/
abbrev RandSource := Nat → Nat

/-- The loop of `playlistShuffle`: at index `i`, draw
`j = i + rand % (count - i)` and swap entries `i` and `j`.  Both accesses
are bounds-checked here; `none` is the out-of-bounds branch (never taken,
see the shuffle theorems).  `fuel` counts the loop iterations still to run:
the entry point passes `a.size`, and since a swap preserves the size, fuel
runs out exactly when `i` reaches `count` (the C loop condition). -/
def shuffleLoop (rand : RandSource) : Nat → Array String → Nat →
    Option (Array String)
  | 0, a, _ => some a
  | fuel + 1, a, i =>
    if h : i < a.size then
      let j := i + rand i % (a.size - i)
      if h' : j < a.size then
        shuffleLoop rand fuel (a.swap ⟨i, h⟩ ⟨j, h'⟩) (i + 1)
      else none
    else some a

/-- `playlistShuffle` (lines 206-216). -/
def playlistShuffle (rand : RandSource) (a : Array String) :
    Option (Array String) :=
  shuffleLoop rand a.size a 0

/-! ## The child argument vector (`runCommand`, lines 40-92) -/

/-- The loop at lines 70-72, filling `argv[1 + i]` for each supplied
argument; `List.set` is a no-op out of bounds, mirroring that the C store
would only be in bounds positions (proved in `runCommandArgv_spec`). -/
def fillArgv (arguments : List String) (argv : List (Option String))
    (i : Nat) : List (Option String) :=
  match arguments with
  | [] => argv
  | a :: rest => fillArgv rest (argv.set (1 + i) (some a)) (i + 1)

/-- The argv construction of `runCommand` (lines 66-73): an uninitialized
vector of `1 + argc` slots with `argc = 1 + arguments_length`, then
`argv[0] = program`, the argument loop, and the `NULL` sentinel at
`argv[argc]`. -/
def runCommandArgv (program : String) (arguments : List String) :
    List (Option String) :=
  let argc := 1 + arguments.length
  let argv := (List.replicate (1 + argc) (none : Option String)).set 0 (some program)
  (fillArgv arguments argv 0).set argc none

/-! ## `main` (lines 454-529) -/

/-- The ambient process environment `main` interacts with:
`clockOk` is whether `clock_gettime` succeeds; `oob` resolves the
out-of-bounds extension comparison (see `isMusicFile`); `readDir` is the
filesystem enumeration (`none` = `opendir` fails); `regcomp` compiles a
pattern into a matcher (`none` = compilation error); `rand` drives the
shuffle; `firstForkFail` is the index of the first `runCommand` call whose
`fork` fails, if any. -/
structure Env where
  clockOk : Bool
  oob : List Char → Bool
  readDir : String → Option (List String)
  regcomp : String → Option (String → Bool)
  rand : RandSource
  firstForkFail : Option Nat

/-- How a run of the program ends: `exited c` is a process exit with status
`c`, `aborted` is the `assert` abort in the directory append, `diverges` is
the endless repeat loop, and `ub` marks an embedding branch that the code
cannot reach (proved unreachable in the main exit-code analysis). -/
inductive MainOutcome where
  | exited (code : Nat)
  | aborted
  | diverges
  | ub
deriving DecidableEq, Repr

/-- Lines 471-487: no pattern means no matcher; a pattern that fails to
compile is `exit(1)` (modelled by the outer `none`). -/
def matcherOf (env : Env) : Option String → Option (Option (String → Bool))
  | none => some none
  | some pat =>
    match env.regcomp pat with
    | none => none
    | some f => some (some f)

/-- The directory loop of lines 491-505: each directory is enumerated in
order and appended into one shared playlist; an unopenable directory is
`exit(1)` (`none` here).  The per-directory empty warning does not affect
control flow. -/
def buildPlaylist (env : Env) (matcher : Option (String → Bool)) :
    List String → Option (List String)
  | [] => some []
  | d :: ds =>
    match env.readDir d with
    | none => none
    | some entries =>
      match buildPlaylist env matcher ds with
      | none => none
      | some rest =>
        some (playlistAppendFromDirectory env.oob matcher d entries ++ rest)

/-- The playback loop of lines 518-524 seen from the parent process, for a
playlist of `count` songs: each `runCommand` whose `fork` fails is
`exit(1)`; with `--no-repeat` the loop runs once and the program returns 0;
otherwise it repeats forever.  Faithful for `count ≥ 1` (the only way the
loop is reached). -/
def playbackOutcome (dontRepeat : Bool) (count : Nat)
    (firstForkFail : Option Nat) : MainOutcome :=
  match firstForkFail with
  | some k =>
    if dontRepeat then
      if k < count then .exited 1 else .exited 0
    else .exited 1
  | none => if dontRepeat then .exited 0 else .diverges

/-- `main` (lines 454-529): seed check, parse, missing-directory check,
regex compilation, playlist build, optional shuffle, empty-playlist check,
playback. -/
def mainRun (env : Env) (argv : List String) : MainOutcome :=
  if env.clockOk = false then .exited 1
  else
    match parseArguments argv with
    | .helpExit => .exited 0
    | .errExit _ _ => .exited 1
    | .assertFail => .aborted
    | .ok pa =>
      if pa.dirs.length = 0 then .exited 1
      else
        match matcherOf env pa.matchPat with
        | none => .exited 1
        | some matcher =>
          match buildPlaylist env matcher pa.dirs with
          | none => .exited 1
          | some playlist =>
            match
              (if pa.dontShuffle then some playlist.toArray
               else playlistShuffle env.rand playlist.toArray) with
            | none => .ub
            | some arr =>
              if arr.size = 0 then .exited 1
              else playbackOutcome pa.dontRepeat arr.size env.firstForkFail

/-! ## Run conditions used to classify `main`'s exit codes -/

/-- The run got past parsing, the missing-directory check and regex
compilation with these results. -/
def ReachedBuild (env : Env) (argv : List String) (pa : ParsedArguments)
    (matcher : Option (String → Bool)) : Prop :=
  env.clockOk = true ∧ parseArguments argv = .ok pa ∧ pa.dirs ≠ [] ∧
    matcherOf env pa.matchPat = some matcher

/-- Normal completion: the whole pipeline succeeds, `--no-repeat` is set and
no `fork` fails during the single pass. -/
def NormalCompletion (env : Env) (argv : List String) : Prop :=
  ∃ pa matcher playlist, ReachedBuild env argv pa matcher ∧
    buildPlaylist env matcher pa.dirs = some playlist ∧ playlist ≠ [] ∧
    pa.dontRepeat = true ∧
    (∀ k, env.firstForkFail = some k → playlist.length ≤ k)

/-- The parser hit a fatal error (after a successful clock read). -/
def ParseFailure (env : Env) (argv : List String) : Prop :=
  env.clockOk = true ∧ ∃ e sh, parseArguments argv = .errExit e sh

/-- Parsing succeeded but no directory was supplied. -/
def MissingDirectories (env : Env) (argv : List String) : Prop :=
  env.clockOk = true ∧ ∃ pa, parseArguments argv = .ok pa ∧ pa.dirs = []

/-- A supplied `--match` pattern failed to compile. -/
def RegexFailure (env : Env) (argv : List String) : Prop :=
  env.clockOk = true ∧ ∃ pa, parseArguments argv = .ok pa ∧ pa.dirs ≠ [] ∧
    matcherOf env pa.matchPat = none

/-- Some supplied directory could not be opened. -/
def DirOpenFailure (env : Env) (argv : List String) : Prop :=
  ∃ pa matcher, ReachedBuild env argv pa matcher ∧
    buildPlaylist env matcher pa.dirs = none

/-- All directories were read but no song survived the filters. -/
def EmptyPlaylist (env : Env) (argv : List String) : Prop :=
  ∃ pa matcher, ReachedBuild env argv pa matcher ∧
    buildPlaylist env matcher pa.dirs = some []

/-- Playback started and a `fork` failed on a call that is actually made
(with `--no-repeat`, only the first `playlist.length` calls happen). -/
def SpawnFailure (env : Env) (argv : List String) : Prop :=
  ∃ pa matcher playlist, ReachedBuild env argv pa matcher ∧
    buildPlaylist env matcher pa.dirs = some playlist ∧ playlist ≠ [] ∧
    ∃ k, env.firstForkFail = some k ∧
      (pa.dontRepeat = true → k < playlist.length)

/-! ## Lemmas about the extension scan -/

/-- The backward scan only reads indices `left - 1, ..., 0`, all of which
are inside the string whenever it starts at (or below) the length. -/
theorem extensionScan_ne_oobRead (name : List Char) :
    ∀ k : Nat, k ≤ name.length → extensionScan name k ≠ .oobRead := by
  intro k
  induction k with
  | zero => intro _ h; simp [extensionScan] at h
  | succ n ih =>
    intro hk
    have hn : n < name.length := Nat.lt_of_succ_le hk
    have : name.get? n = some (name.get ⟨n, hn⟩) := List.get?_eq_get hn
    simp only [extensionScan, this]
    split
    · simp
    · exact ih (Nat.le_of_lt hn)

/-- Scanning below the appended last element ignores it. -/
theorem extensionScan_append (xs : List Char) (c : Char) :
    ∀ k : Nat, k ≤ xs.length → extensionScan (xs ++ [c]) k = extensionScan xs k := by
  intro k
  induction k with
  | zero => intro _; rfl
  | succ n ih =>
    intro hk
    have hn : n < xs.length := Nat.lt_of_succ_le hk
    have hh : (xs ++ [c]).get? n = xs.get? n := by
      simp [List.get?_eq_getElem?, List.getElem?_append_left hn]
    simp only [extensionScan, hh]
    cases hx : xs.get? n with
    | none => rfl
    | some d =>
      by_cases hd : d = '.' ∨ d = '/'
      · simp [hd]
      · simp only [hd, if_false]
        exact ih (Nat.le_of_lt hn)

/-- The scan in terms of the spec's trailing-run of non-separator
characters: it exhausts the string exactly when no `'.'` or `'/'` occurs,
and otherwise breaks at the last separator position. -/
theorem extensionScan_eq_takeWhile (name : List Char) :
    extensionScan name name.length =
      if (name.reverse.takeWhile notSep).length = name.length
      then ScanResult.exhausted
      else .found (name.length - (name.reverse.takeWhile notSep).length - 1) := by
  induction name using List.reverseRecOn with
  | nil => rfl
  | append_singleton xs c ih =>
    have hlen : (xs ++ [c]).length = xs.length + 1 := by simp
    have hget : (xs ++ [c]).get? xs.length = some c := by
      simp [List.get?_eq_getElem?]
    by_cases hc : c = '.' ∨ c = '/'
    · have hns : notSep c = false := by simp [notSep, hc]
      have htw : ((xs ++ [c]).reverse.takeWhile notSep) = [] := by
        simp [List.reverse_append, List.takeWhile_cons, hns]
      rw [hlen, htw]
      simp only [extensionScan, hget]
      rw [if_pos hc]
      have h0 : ¬ (([] : List Char).length = xs.length + 1) := by simp
      rw [if_neg h0]
      simp
    · have hns : notSep c = true := by simp [notSep, hc]
      have htw : ((xs ++ [c]).reverse.takeWhile notSep) =
          c :: xs.reverse.takeWhile notSep := by
        simp [List.reverse_append, List.takeWhile_cons, hns]
      rw [hlen, htw]
      simp only [extensionScan, hget]
      rw [if_neg hc]
      rw [extensionScan_append xs c xs.length (Nat.le_refl _), ih]
      by_cases ht : (xs.reverse.takeWhile notSep).length = xs.length
      · rw [if_pos ht]
        have h2 : (c :: xs.reverse.takeWhile notSep).length = xs.length + 1 := by
          simp [ht]
        rw [if_pos h2]
      · rw [if_neg ht]
        have htle : (xs.reverse.takeWhile notSep).length ≤ xs.length := by
          have := (List.takeWhile_sublist (l := xs.reverse) notSep).length_le
          simpa using this
        have h1 : ¬ ((c :: xs.reverse.takeWhile notSep).length = xs.length + 1) := by
          simp only [List.length_cons]
          omega
        rw [if_neg h1]
        congr 1
        simp only [List.length_cons]
        omega

/-- A run that must stop strictly before the end of the list. -/
theorem takeWhile_length_lt {α : Type} (p : α → Bool) (l : List α)
    (h : ∃ c ∈ l, p c = false) : (l.takeWhile p).length < l.length := by
  induction l with
  | nil => simp at h
  | cons a t ih =>
    rcases h with ⟨c, hc, hpc⟩
    by_cases hpa : p a
    · rw [List.takeWhile_cons_of_pos hpa]
      rcases List.mem_cons.mp hc with rfl | hct
      · rw [hpa] at hpc; cases hpc
      · have := ih ⟨c, hct, hpc⟩
        simpa using Nat.succ_lt_succ this
    · rw [List.takeWhile_cons_of_neg hpa]
      simp

/-- When the name contains a separator the core check is defined and agrees
with membership of the spec-side extension in the recognized set. -/
theorem isMusicFileCore_eq_spec (s : String)
    (h : ∃ c ∈ s.toList, c = '.' ∨ c = '/') :
    isMusicFileCore s.toList =
      some (decide (specExtension s ∈ musicFileExtensions)) := by
  have hlt : (s.toList.reverse.takeWhile notSep).length < s.toList.length := by
    rcases h with ⟨c, hc, hcs⟩
    have := takeWhile_length_lt notSep s.toList.reverse
      ⟨c, List.mem_reverse.mpr hc, by simp [notSep, hcs]⟩
    simpa using this
  have hne : ¬ ((s.toList.reverse.takeWhile notSep).length = s.toList.length) :=
    Nat.ne_of_lt hlt
  simp only [isMusicFileCore, extensionScan_eq_takeWhile, hne, if_false,
    specExtension]

/-- Totalized version of the same fact: the `oob` resolution is irrelevant
when a separator is present. -/
theorem isMusicFile_eq_spec (oob : List Char → Bool) (s : String)
    (h : ∃ c ∈ s.toList, c = '.' ∨ c = '/') :
    isMusicFile oob s.toList = decide (specExtension s ∈ musicFileExtensions) := by
  unfold isMusicFile
  rw [isMusicFileCore_eq_spec s h]

/-- Unfolding step for the spec-side playlist. -/
theorem specPlaylist_cons (matcher : Option (String → Bool)) (path e : String)
    (es : List String) :
    specPlaylist matcher path (e :: es) =
      if specKeep matcher e then
        (path ++ "/" ++ e) :: specPlaylist matcher path es
      else specPlaylist matcher path es := by
  simp only [specPlaylist, List.filter_cons]
  split <;> simp

/-- C1 (amended): on directory listings whose every filename contains a
`'.'` or `'/'` character, the playlist built from one directory contains
exactly the entries whose extension is in the recognized set and whose
filename passes the optional filter, appended once each in encounter order
as `path ++ "/" ++ filename` — the spec-side filter-and-map — and this is
independent of the out-of-bounds read resolution.  The restriction is
forced by the out-of-bounds comparison in `isMusicFile` (see the
counterexample). -/
theorem playlistAppendFromDirectory_matches_spec (oob : List Char → Bool)
    (matcher : Option (String → Bool)) (path : String) :
    ∀ entries : List String,
      (∀ e ∈ entries, ∃ c ∈ e.toList, c = '.' ∨ c = '/') →
      playlistAppendFromDirectory oob matcher path entries =
        specPlaylist matcher path entries := by
  intro entries
  induction entries with
  | nil => intro _; rfl
  | cons e es ih =>
    intro h
    have he := h e (List.mem_cons_self e es)
    have hes : ∀ x ∈ es, ∃ c ∈ x.toList, c = '.' ∨ c = '/' :=
      fun x hx => h x (List.mem_cons_of_mem _ hx)
    have hmf := isMusicFile_eq_spec oob e he
    rw [specPlaylist_cons]
    simp only [playlistAppendFromDirectory, hmf]
    by_cases hx : specExtension e ∈ musicFileExtensions
    · by_cases hm : matchOk matcher e = true
      · have hk : specKeep matcher e = true := by simp [specKeep, hx, hm]
        simp [hx, hm, hk, ih hes]
      · have hk : specKeep matcher e = false := by simp [specKeep, hm]
        simp [hx, hm, hk, ih hes]
    · have hk : specKeep matcher e = false := by simp [specKeep, hx]
      simp [hx, hk, ih hes]

/-! ## Lemmas about the shuffle -/

/-- Moving the element at index `m` to the front while writing `a` into its
slot is a permutation of putting `a` at the front. -/
theorem cons_set_perm {α : Type} :
    ∀ (t : List α) (m : Nat) (hm : m < t.length) (a : α),
      List.Perm (t.get ⟨m, hm⟩ :: t.set m a) (a :: t) := by
  intro t
  induction t with
  | nil => intro m hm; simp at hm
  | cons b t' ih =>
    intro m hm a
    cases m with
    | zero => exact List.Perm.swap a b t'
    | succ k =>
      have hk : k < t'.length := by simpa using hm
      have step1 : List.Perm (t'.get ⟨k, hk⟩ :: b :: t'.set k a)
          (b :: t'.get ⟨k, hk⟩ :: t'.set k a) := List.Perm.swap b _ _
      have step2 : List.Perm (b :: t'.get ⟨k, hk⟩ :: t'.set k a) (b :: a :: t') :=
        List.Perm.cons b (ih k hk a)
      have step3 : List.Perm (b :: a :: t') (a :: b :: t') := List.Perm.swap a b t'
      simpa using (step1.trans step2).trans step3

/-- The double `set` that realizes an array swap permutes the list. -/
theorem set_set_perm {α : Type} :
    ∀ (l : List α) (i j : Nat) (hi : i < l.length) (hj : j < l.length),
      List.Perm ((l.set i (l.get ⟨j, hj⟩)).set j (l.get ⟨i, hi⟩)) l := by
  intro l
  induction l with
  | nil => intro i j hi; simp at hi
  | cons b t ih =>
    intro i j hi hj
    cases i with
    | zero =>
      cases j with
      | zero => simp
      | succ m =>
        have hm : m < t.length := by simpa using hj
        simpa using cons_set_perm t m hm b
    | succ n =>
      have hn : n < t.length := by simpa using hi
      cases j with
      | zero => simpa using cons_set_perm t n hn b
      | succ m =>
        have hm : m < t.length := by simpa using hj
        simpa using List.Perm.cons b (ih n m hn hm)

/-- Swapping two entries of an array permutes its contents. -/
theorem swap_toList_perm (a : Array String) (i j : Fin a.size) :
    List.Perm ((a.swap i j).toList) a.toList := by
  rw [Array.toList_swap]
  have hi : (i : Nat) < a.toList.length := by simp [i.isLt]
  have hj : (j : Nat) < a.toList.length := by simp [j.isLt]
  have hgi : a.get i = a.toList.get ⟨i, hi⟩ := by simp [List.get_eq_getElem]
  have hgj : a.get j = a.toList.get ⟨j, hj⟩ := by simp [List.get_eq_getElem]
  rw [hgi, hgj]
  exact set_set_perm a.toList i j hi hj

/-- Swapping an index with itself changes nothing. -/
theorem swap_self (a : Array String) (i : Fin a.size) : a.swap i i = a := by
  apply Array.ext
  · simp
  · intro k hk1 hk2
    rw [Array.getElem_swap]
    split
    · rename_i h; subst h; rfl
    · rfl

/-- The shuffle loop with sufficient fuel always completes, preserves the
size and permutes the contents. -/
theorem shuffleLoop_spec (rand : RandSource) :
    ∀ (fuel : Nat) (a : Array String) (i : Nat), a.size ≤ i + fuel →
      ∃ b, shuffleLoop rand fuel a i = some b ∧ b.size = a.size ∧
        List.Perm b.toList a.toList := by
  intro fuel
  induction fuel with
  | zero => intro a i _; exact ⟨a, rfl, rfl, List.Perm.refl _⟩
  | succ f ih =>
    intro a i h
    by_cases hi : i < a.size
    · have h1 : 0 < a.size - i := by omega
      have hjlt : i + rand i % (a.size - i) < a.size := by
        have := Nat.mod_lt (rand i) h1
        omega
      have hsz : (a.swap ⟨i, hi⟩ ⟨i + rand i % (a.size - i), hjlt⟩).size = a.size := by
        simp
      obtain ⟨b, hb, hbsz, hbperm⟩ :=
        ih (a.swap ⟨i, hi⟩ ⟨i + rand i % (a.size - i), hjlt⟩) (i + 1) (by omega)
      refine ⟨b, ?_, by rw [hbsz, hsz], hbperm.trans (swap_toList_perm a _ _)⟩
      simp only [shuffleLoop, hi, dif_pos, hjlt]
      exact hb
    · exact ⟨a, by simp only [shuffleLoop, hi, dif_neg, not_false_iff], rfl,
        List.Perm.refl _⟩

/-- A playlist of at most one song is returned unchanged. -/
theorem playlistShuffle_small (rand : RandSource) (a : Array String)
    (h : a.size ≤ 1) : playlistShuffle rand a = some a := by
  obtain ⟨b, hb, _, hperm⟩ := shuffleLoop_spec rand a.size a 0 (by omega)
  unfold playlistShuffle
  rw [hb]
  congr 1
  apply Array.ext'
  rcases Nat.le_one_iff_eq_zero_or_eq_one.mp h with h0 | h1
  · have ha : a.toList = [] := List.eq_nil_of_length_eq_zero (by simp [h0])
    rw [ha] at hperm ⊢
    exact hperm.eq_nil
  · obtain ⟨x, hx⟩ := List.length_eq_one.mp (by simp [h1] : a.toList.length = 1)
    rw [hx] at hperm ⊢
    exact hperm.eq_singleton


/-! ## Lemmas about the argument parser -/

/-- A short-option cluster that falls through to the caller never touches
the directory list. -/
theorem parseShortOptions_done_dirs (pa pa' : ParsedArguments) :
    ∀ chars : List Char, parseShortOptions pa chars = .done pa' →
      pa'.dirs = pa.dirs := by
  intro chars h
  cases chars with
  | nil => cases h; rfl
  | cons c rest =>
    simp only [parseShortOptions] at h
    by_cases hc : c = 'h'
    · simp [hc] at h
    · by_cases hm : c = 'm'
      · simp only [hc, if_false, hm, if_true] at h
        by_cases hr : rest.isEmpty
        · simp [hr] at h
        · simp only [hr, if_false] at h
          cases h
          rfl
      · simp [hc, hm] at h

/-- A successful directory append extends the list by one and presupposes
the guard. -/
theorem appendDirectory_some (pa pa' : ParsedArguments) (d : String)
    (h : parsedArgumentsAppendDirectory pa d = some pa') :
    pa'.dirs = pa.dirs ++ [d] ∧ pa.dirs.length < maxDirectories := by
  simp only [parsedArgumentsAppendDirectory] at h
  by_cases hlt : pa.dirs.length < maxDirectories
  · rw [if_pos hlt] at h
    cases h
    exact ⟨rfl, hlt⟩
  · rw [if_neg hlt] at h
    cases h


/-- A fatal error raised inside a short-option cluster always prints the
short help and is an unknown-short-option error. -/
theorem parseShortOptions_err (pa : ParsedArguments) :
    ∀ (chars : List Char) (e : ParseError) (sh : Bool),
      parseShortOptions pa chars = .errExit e sh →
      sh = true ∧ isUnknownLong e = false := by
  intro chars e sh h
  cases chars with
  | nil => cases h
  | cons c rest =>
    simp only [parseShortOptions] at h
    by_cases hc : c = 'h'
    · simp [hc] at h
    · by_cases hm : c = 'm'
      · simp only [hc, if_false, hm, if_true] at h
        by_cases hr : rest.isEmpty
        · simp [hr] at h
        · simp [hr] at h
      · simp only [hc, if_false, hm] at h
        cases h
        exact ⟨rfl, rfl⟩

/-- A `BASE` token that continues the loop either leaves the directory list
alone or appends this token under the `assert` guard. -/
theorem baseAct_cont_dirs (pa pa' : ParsedArguments) (next : String)
    (h : baseAct pa next = .cont pa') :
    pa'.dirs = pa.dirs ∨
      (pa'.dirs = pa.dirs ++ [next] ∧ pa.dirs.length < maxDirectories) := by
  simp only [baseAct] at h
  split_ifs at h with h1 h2 h3 h4 h5 h6 h7 h8
  · cases h; exact Or.inl rfl
  · cases h; exact Or.inl rfl
  · cases h; exact Or.inl rfl
  · cases hso : parseShortOptions pa next.toList.tail with
    | done pa'' =>
      rw [hso] at h
      cases h
      exact Or.inl (parseShortOptions_done_dirs pa _ _ hso)
    | helpExit => rw [hso] at h; cases h
    | errExit e sh => rw [hso] at h; cases h
    | needMatchArg => rw [hso] at h; cases h
  · cases happ : parsedArgumentsAppendDirectory pa next with
    | none => rw [happ] at h; cases h
    | some pa'' =>
      rw [happ] at h
      cases h
      exact Or.inr (appendDirectory_some pa _ next happ)

/-- A fatal error classified in `BASE` prints the short help exactly when it
is not the unknown-long-option error. -/
theorem baseAct_err_shortHelp (pa : ParsedArguments) (next : String)
    (e : ParseError) (sh : Bool) (h : baseAct pa next = .err e sh) :
    sh = !(isUnknownLong e) := by
  simp only [baseAct] at h
  split_ifs at h with h1 h2 h3 h4 h5 h6 h7 h8
  · cases h; rfl
  · cases hso : parseShortOptions pa next.toList.tail with
    | done pa'' => rw [hso] at h; cases h
    | helpExit => rw [hso] at h; cases h
    | errExit e' sh' =>
      rw [hso] at h
      cases h
      obtain ⟨ha, hb⟩ := parseShortOptions_err pa _ _ _ hso
      rw [ha, hb]
      rfl
    | needMatchArg => rw [hso] at h; cases h
  · cases happ : parsedArgumentsAppendDirectory pa next with
    | none => rw [happ] at h; cases h
    | some pa'' => rw [happ] at h; cases h

/-- Invariant walk over the parser loop: a successful parse never holds
more than `maxDirectories` directories, and every fatal error prints the
short help except the unknown-long-option one. -/
theorem parseLoop_props (n : Nat) :
    ∀ toks : List String, toks.length ≤ n →
    ∀ (st : ArgumentParserState) (pa : ParsedArguments),
      (∀ r, parseLoop st pa toks = ParseOutcome.ok r →
        pa.dirs.length ≤ maxDirectories → r.dirs.length ≤ maxDirectories) ∧
      (∀ e sh, parseLoop st pa toks = ParseOutcome.errExit e sh →
        sh = !(isUnknownLong e)) := by
  induction n with
  | zero =>
    intro toks hlen st pa
    have : toks = [] := List.eq_nil_of_length_eq_zero (Nat.le_zero.mp hlen)
    subst this
    constructor
    · intro r h hle
      cases st <;> simp only [parseLoop] at h <;> first
        | (cases h; exact hle)
        | cases h
    · intro e sh h
      cases st <;> simp only [parseLoop] at h <;> first
        | (cases h; rfl)
        | cases h
  | succ n ih =>
    intro toks hlen st pa
    -- dispatch on the token shape the loop matches on
    match toks with
    | [] =>
      constructor
      · intro r h hle
        cases st <;> simp only [parseLoop] at h <;> first
          | (cases h; exact hle)
          | cases h
      · intro e sh h
        cases st <;> simp only [parseLoop] at h <;> first
          | (cases h; rfl)
          | cases h
    | [next] =>
      have hrest : ([] : List String).length ≤ n := by simp
      cases st with
      | endOfOptions =>
        constructor
        · intro r h hle
          simp only [parseLoop] at h
          cases happ : parsedArgumentsAppendDirectory pa next with
          | none => rw [happ] at h; simp only [dispatchAppend] at h; cases h
          | some pa' =>
            rw [happ] at h
            simp only [dispatchAppend] at h
            obtain ⟨hd, hlt⟩ := appendDirectory_some pa pa' next happ
            have hle' : pa'.dirs.length ≤ maxDirectories := by
              rw [hd]; simp only [List.length_append, List.length_cons,
                List.length_nil]; omega
            exact (ih [] hrest .endOfOptions pa').1 r h hle'
        · intro e sh h
          simp only [parseLoop] at h
          cases happ : parsedArgumentsAppendDirectory pa next with
          | none => rw [happ] at h; simp only [dispatchAppend] at h; cases h
          | some pa' =>
            rw [happ] at h
            simp only [dispatchAppend] at h
            exact (ih [] hrest .endOfOptions pa').2 e sh h
      | matchPending =>
        constructor
        · intro r h hle
          simp only [parseLoop] at h
          exact (ih [] hrest .base _).1 r h hle
        · intro e sh h
          simp only [parseLoop] at h
          exact (ih [] hrest .base _).2 e sh h
      | base =>
        constructor
        · intro r h hle
          simp only [parseLoop] at h
          cases hact : baseAct pa next <;> rw [hact] at h <;>
            simp only [dispatchBase] at h
          · cases h
          · cases h
          · rename_i pa'
            rcases baseAct_cont_dirs pa pa' next hact with hd | ⟨hd, hlt⟩
            · exact (ih [] hrest .base pa').1 r h (hd ▸ hle)
            · have hle' : pa'.dirs.length ≤ maxDirectories := by
                rw [hd]; simp only [List.length_append, List.length_cons,
                  List.length_nil]; omega
              exact (ih [] hrest .base pa').1 r h hle'
          · exact (ih [] hrest .matchPending pa).1 r h hle
          · exact (ih [] hrest .endOfOptions pa).1 r h hle
          · cases h
          · cases h
        · intro e sh h
          simp only [parseLoop] at h
          cases hact : baseAct pa next <;> rw [hact] at h <;>
            simp only [dispatchBase] at h
          · cases h
          · rename_i e' sh'
            cases h
            exact baseAct_err_shortHelp pa next e sh hact
          · rename_i pa'
            exact (ih [] hrest .base pa').2 e sh h
          · exact (ih [] hrest .matchPending pa).2 e sh h
          · exact (ih [] hrest .endOfOptions pa).2 e sh h
          · cases h; rfl
          · cases h
    | next :: arg :: rest' =>
      have hrest : (arg :: rest').length ≤ n := by
        simp only [List.length_cons] at hlen ⊢
        omega
      have hrest' : rest'.length ≤ n := by
        simp only [List.length_cons] at hrest
        omega
      cases st with
      | endOfOptions =>
        constructor
        · intro r h hle
          simp only [parseLoop] at h
          cases happ : parsedArgumentsAppendDirectory pa next with
          | none => rw [happ] at h; simp only [dispatchAppend] at h; cases h
          | some pa' =>
            rw [happ] at h
            simp only [dispatchAppend] at h
            obtain ⟨hd, hlt⟩ := appendDirectory_some pa pa' next happ
            have hle' : pa'.dirs.length ≤ maxDirectories := by
              rw [hd]; simp only [List.length_append, List.length_cons,
                List.length_nil]; omega
            exact (ih _ hrest .endOfOptions pa').1 r h hle'
        · intro e sh h
          simp only [parseLoop] at h
          cases happ : parsedArgumentsAppendDirectory pa next with
          | none => rw [happ] at h; simp only [dispatchAppend] at h; cases h
          | some pa' =>
            rw [happ] at h
            simp only [dispatchAppend] at h
            exact (ih _ hrest .endOfOptions pa').2 e sh h
      | matchPending =>
        constructor
        · intro r h hle
          simp only [parseLoop] at h
          exact (ih _ hrest .base _).1 r h hle
        · intro e sh h
          simp only [parseLoop] at h
          exact (ih _ hrest .base _).2 e sh h
      | base =>
        constructor
        · intro r h hle
          simp only [parseLoop] at h
          cases hact : baseAct pa next <;> rw [hact] at h <;>
            simp only [dispatchBase] at h
          · cases h
          · cases h
          · rename_i pa'
            rcases baseAct_cont_dirs pa pa' next hact with hd | ⟨hd, hlt⟩
            · exact (ih _ hrest .base pa').1 r h (hd ▸ hle)
            · have hle' : pa'.dirs.length ≤ maxDirectories := by
                rw [hd]; simp only [List.length_append, List.length_cons,
                  List.length_nil]; omega
              exact (ih _ hrest .base pa').1 r h hle'
          · exact (ih _ hrest .matchPending pa).1 r h hle
          · exact (ih _ hrest .endOfOptions pa).1 r h hle
          · exact (ih _ hrest' .base _).1 r h hle
          · cases h
        · intro e sh h
          simp only [parseLoop] at h
          cases hact : baseAct pa next <;> rw [hact] at h <;>
            simp only [dispatchBase] at h
          · cases h
          · rename_i e' sh'
            cases h
            exact baseAct_err_shortHelp pa next e sh hact
          · rename_i pa'
            exact (ih _ hrest .base pa').2 e sh h
          · exact (ih _ hrest .matchPending pa).2 e sh h
          · exact (ih _ hrest .endOfOptions pa).2 e sh h
          · exact (ih _ hrest' .base _).2 e sh h
          · cases h

/-! ## Lemmas about the child argv construction -/

/-- The fill loop writes the arguments into consecutive slots starting at
index `1 + i`, leaving everything before and after untouched. -/
theorem fillArgv_eq :
    ∀ (args : List String) (A B C : List (Option String)) (i : Nat),
      A.length = 1 + i → B.length = args.length →
      fillArgv args (A ++ B ++ C) i = A ++ args.map some ++ C := by
  intro args
  induction args with
  | nil =>
    intro A B C i hA hB
    have : B = [] := List.eq_nil_of_length_eq_zero hB
    subst this
    simp [fillArgv]
  | cons a rest ih =>
    intro A B C i hA hB
    cases B with
    | nil => simp at hB
    | cons b B' =>
      have hB' : B'.length = rest.length := by simpa using hB
      simp only [fillArgv]
      have hset : (A ++ (b :: B') ++ C).set (1 + i) (some a) =
          (A ++ [some a]) ++ B' ++ C := by
        rw [List.append_assoc, List.set_append_right _ _ (by omega : A.length ≤ 1 + i)]
        have : 1 + i - A.length = 0 := by omega
        rw [this]
        simp
      rw [hset, ih (A ++ [some a]) B' C (i + 1) (by simp [hA]; omega) hB']
      simp

/-- The argv built for the child is the program name, the arguments in
order, and the `NULL` sentinel. -/
theorem runCommandArgv_shape (program : String) (arguments : List String) :
    runCommandArgv program arguments =
      some program :: arguments.map some ++ [none] := by
  show (fillArgv arguments
      ((List.replicate (1 + (1 + arguments.length)) none).set 0 (some program)) 0).set
      (1 + arguments.length) none =
    some program :: arguments.map some ++ [none]
  have h1 : (List.replicate (1 + (1 + arguments.length)) (none : Option String)).set 0
      (some program) =
      [some program] ++ List.replicate arguments.length none ++ [none] := by
    have h2 : 1 + (1 + arguments.length) = (arguments.length + 1) + 1 := by omega
    rw [h2, List.replicate_succ, List.set_cons_zero, List.replicate_succ']
    simp
  rw [h1, fillArgv_eq arguments [some program] (List.replicate arguments.length none)
    [none] 0 (by simp) (by simp)]
  rw [List.append_assoc, List.set_append_right _ _
    (by simp : ([some program] : List (Option String)).length ≤ 1 + arguments.length)]
  have h3 : 1 + arguments.length - ([some program] : List (Option String)).length =
      arguments.length := by simp
  rw [h3, List.set_append_right _ _ (by simp : (arguments.map some).length ≤ arguments.length)]
  simp

/-! ## Lemmas about main -/

/-- The shuffle always completes and preserves the number of songs. -/
theorem playlistShuffle_some_size (rand : RandSource) (a : Array String) :
    ∃ b, playlistShuffle rand a = some b ∧ b.size = a.size := by
  obtain ⟨b, hb, hsz, _⟩ := shuffleLoop_spec rand a.size a 0 (by omega)
  exact ⟨b, hb, hsz⟩

/-- Once the pipeline reaches the playlist build with result `playlist`,
the run is determined by the playlist length, repeat flag and fork
behaviour. -/
theorem mainRun_reached (env : Env) (argv : List String)
    (pa : ParsedArguments) (matcher : Option (String → Bool))
    (playlist : List String) (hr : ReachedBuild env argv pa matcher)
    (hb : buildPlaylist env matcher pa.dirs = some playlist) :
    mainRun env argv =
      if playlist.length = 0 then .exited 1
      else playbackOutcome pa.dontRepeat playlist.length env.firstForkFail := by
  obtain ⟨hck, hp, hdirs, hm⟩ := hr
  have hlen : ¬ (pa.dirs.length = 0) := by
    intro h0
    exact hdirs (List.eq_nil_of_length_eq_zero h0)
  simp only [mainRun, hck, hp, hm, hb, Bool.true_eq_false, if_false, hlen]
  cases hds : pa.dontShuffle with
  | true => simp
  | false =>
    obtain ⟨b, hbs, hsz⟩ := playlistShuffle_some_size env.rand playlist.toArray
    simp [hbs, hsz]

/-- The playback phase ends in exit 0, exit 1 or an endless loop. -/
theorem playbackOutcome_cases (d : Bool) (n : Nat) (f : Option Nat) :
    playbackOutcome d n f = .exited 0 ∨ playbackOutcome d n f = .exited 1 ∨
      playbackOutcome d n f = .diverges := by
  unfold playbackOutcome
  cases f with
  | none => cases d <;> simp
  | some k =>
    cases d with
    | false => simp
    | true =>
      by_cases hk : k < n <;> simp [hk]

/-- Every run ends in exit 0, exit 1, the `assert` abort, or divergence:
the embedding's unreachable branch is never taken. -/
theorem mainRun_outcomes (env : Env) (argv : List String) :
    mainRun env argv = .exited 0 ∨ mainRun env argv = .exited 1 ∨
      mainRun env argv = .aborted ∨ mainRun env argv = .diverges := by
  cases hck : env.clockOk with
  | false =>
    right; left
    simp [mainRun, hck]
  | true =>
    cases hp : parseArguments argv with
    | helpExit => left; simp [mainRun, hck, hp]
    | errExit e sh => right; left; simp [mainRun, hck, hp]
    | assertFail => right; right; left; simp [mainRun, hck, hp]
    | ok pa =>
      by_cases hd : pa.dirs.length = 0
      · right; left; simp [mainRun, hck, hp, hd]
      · cases hm : matcherOf env pa.matchPat with
        | none => right; left; simp [mainRun, hck, hp, hd, hm]
        | some matcher =>
          cases hb : buildPlaylist env matcher pa.dirs with
          | none => right; left; simp [mainRun, hck, hp, hd, hm, hb]
          | some playlist =>
            have hre : ReachedBuild env argv pa matcher :=
              ⟨hck, hp, fun h0 => hd (by simp [h0]), hm⟩
            rw [mainRun_reached env argv pa matcher playlist hre hb]
            by_cases hlen : playlist.length = 0
            · right; left; simp [hlen]
            · rw [if_neg hlen]
              rcases playbackOutcome_cases pa.dontRepeat playlist.length
                env.firstForkFail with h | h | h
              · left; exact h
              · right; left; exact h
              · right; right; right; exact h

/-- Feeding plain directory tokens past the maximum ends in the aborted
append assertion. -/
theorem parseLoop_overflow :
    ∀ (k : Nat) (pa : ParsedArguments),
      pa.dirs.length ≤ maxDirectories → maxDirectories < pa.dirs.length + k →
      parseLoop .base pa (List.replicate k "d") = .assertFail := by
  intro k
  induction k with
  | zero => intro pa h1 h2; omega
  | succ k ih =>
    intro pa h1 h2
    rw [List.replicate_succ]
    have hbase : baseAct pa "d" =
        (match parsedArgumentsAppendDirectory pa "d" with
        | some pa' => BaseAct.cont pa'
        | none => BaseAct.appendFailed) := by
      simp only [baseAct]
      rw [if_neg (by decide), if_neg (by decide), if_neg (by decide),
        if_neg (by decide), if_neg (by decide), if_neg (by decide),
        if_neg (by decide), if_neg (by decide)]
    by_cases hlt : pa.dirs.length < maxDirectories
    · have happ : parsedArgumentsAppendDirectory pa "d" =
          some { pa with dirs := pa.dirs ++ ["d"] } := by
        simp [parsedArgumentsAppendDirectory, hlt]
      have hact : baseAct pa "d" = .cont { pa with dirs := pa.dirs ++ ["d"] } := by
        rw [hbase, happ]
      cases hrep : List.replicate k "d" with
      | nil =>
        have hk : k = 0 := by
          have := congrArg List.length hrep
          simpa using this
        omega
      | cons a l =>
        simp only [parseLoop, hact, dispatchBase]
        rw [← hrep]
        apply ih
        · simp only [List.length_append, List.length_cons, List.length_nil]
          omega
        · simp only [List.length_append, List.length_cons, List.length_nil]
          omega
    · have happ : parsedArgumentsAppendDirectory pa "d" = none := by
        simp [parsedArgumentsAppendDirectory, hlt]
      have hact : baseAct pa "d" = .appendFailed := by
        rw [hbase, happ]
      cases List.replicate k "d" with
      | nil => simp only [parseLoop, hact, dispatchBase]
      | cons a l => simp only [parseLoop, hact, dispatchBase]

/-! ## Claim theorems -/

/-- C1 counterexample: for the dot-less filename "mp3" the membership test
reads the byte before the name, so the playlist depends on memory outside
the string: one resolution of that read admits "d/mp3" although the
spec-side test rejects "mp3" (its extension is not in the recognized set).
The claim as stated is therefore false on such listings. -/
theorem playlistAppend_depends_on_oob :
    playlistAppendFromDirectory (fun _ => true) none "d" ["mp3"] = ["d/mp3"] ∧
    playlistAppendFromDirectory (fun _ => false) none "d" ["mp3"] = [] ∧
    specKeep none "mp3" = false := by
  refine ⟨by decide, by decide, by decide⟩

/-- C1 witness: a concrete directory listing where the build equals the
spec-side playlist. -/
theorem playlistAppend_matches_spec_witness :
    playlistAppendFromDirectory (fun _ => false) none "d"
        ["a.mp3", "b.txt", "c.flac"] =
      specPlaylist none "d" ["a.mp3", "b.txt", "c.flac"] :=
  playlistAppendFromDirectory_matches_spec (fun _ => false) none "d" _ (by decide)

/-- C2: the shuffle is the single-pass Fisher-Yates loop drawing
`j = i + rand % (count - i)`; it always completes, the multiset of entries
is unchanged, and a playlist of at most one entry is returned untouched. -/
theorem playlistShuffle_permutation (rand : RandSource) (a : Array String) :
    ∃ b, playlistShuffle rand a = some b ∧
      (↑b.toList : Multiset String) = (↑a.toList : Multiset String) ∧
      (a.size ≤ 1 → b = a) := by
  obtain ⟨b, hb, _, hperm⟩ := shuffleLoop_spec rand a.size a 0 (by omega)
  have hb' : playlistShuffle rand a = some b := hb
  refine ⟨b, hb', Multiset.coe_eq_coe.mpr hperm, fun hle => ?_⟩
  have h2 := playlistShuffle_small rand a hle
  rw [hb'] at h2
  exact Option.some.inj h2

/-- C2 witness: a singleton playlist is returned unchanged. -/
theorem playlistShuffle_permutation_witness :
    ∃ b, playlistShuffle (fun _ => 7) #["only.mp3"] = some b ∧ b = #["only.mp3"] := by
  obtain ⟨b, hb, _, hsmall⟩ := playlistShuffle_permutation (fun _ => 7) #["only.mp3"]
  exact ⟨b, hb, hsmall (by decide)⟩

/-- C10: at every iteration the modulus `count - i` is positive (no
division by zero), the drawn index satisfies `i ≤ j < count`, and
consequently the whole shuffle performs only in-bounds reads and writes
(the out-of-bounds branch of the embedding is never taken). -/
theorem playlistShuffle_bounds (rand : RandSource) (a : Array String) :
    (∀ i : Nat, i < a.size →
      0 < a.size - i ∧ i ≤ i + rand i % (a.size - i) ∧
        i + rand i % (a.size - i) < a.size) ∧
    (playlistShuffle rand a).isSome := by
  constructor
  · intro i hi
    have h1 : 0 < a.size - i := by omega
    refine ⟨h1, Nat.le_add_right _ _, ?_⟩
    have := Nat.mod_lt (rand i) h1
    omega
  · obtain ⟨b, hb, _⟩ := playlistShuffle_some_size rand a
    simp [hb]

/-- C10 witness at a concrete playlist, random draw and iteration index. -/
theorem playlistShuffle_bounds_witness :
    (0 < 2 - 0 ∧ 0 ≤ 0 + 5 % 2 ∧ 0 + 5 % 2 < 2) ∧
    (playlistShuffle (fun _ => 5) #["a.mp3", "b.mp3"]).isSome := by
  have h := playlistShuffle_bounds (fun _ => 5) #["a.mp3", "b.mp3"]
  exact ⟨h.1 0 (by decide), h.2⟩

/-- C4 counterexample: the token sequence `["--", "-h"]` contains a `-h`
token and triggers no fatal error, yet the parser does not print help and
exit 0 — after `--` the token is consumed as a directory. -/
theorem parseArguments_help_not_global :
    parseArguments ["play-music", "--", "-h"] =
      .ok { programName := some "play-music", dirs := ["-h"] } ∧
    parseArguments ["play-music", "--", "-h"] ≠ .helpExit := by
  refine ⟨by decide, by decide⟩

/-- C4 (amended): whenever the parser meets a `--help` or `-h` token while
in its `BASE` state — i.e. not after `--` and not as the pending `--match`
argument — it prints the help text and exits 0 regardless of every token
that follows; in particular any argument vector whose first user token is
`--help` or `-h`. -/
theorem parser_help_in_base_state :
    (∀ (pa : ParsedArguments) (rest : List String),
      parseLoop .base pa ("--help" :: rest) = .helpExit) ∧
    (∀ (pa : ParsedArguments) (rest : List String),
      parseLoop .base pa ("-h" :: rest) = .helpExit) ∧
    (∀ (prog : String) (post : List String),
      parseArguments (prog :: "--help" :: post) = .helpExit) ∧
    (∀ (prog : String) (post : List String),
      parseArguments (prog :: "-h" :: post) = .helpExit) := by
  refine ⟨?_, ?_, ?_, ?_⟩ <;> intro x rest <;> cases rest <;> rfl

/-- C5: after `--match` (or `-m` with nothing left in its cluster) the very
next token, whatever its shape, becomes the match pattern and the loop
returns to `BASE`; with no token left the parse fails fatally; and since a
later assignment overwrites the field, the last pattern supplied wins. -/
theorem matchPending_semantics :
    (∀ (pa : ParsedArguments) (t : String) (rest : List String),
      parseLoop .base pa ("--match" :: t :: rest) =
        parseLoop .base { pa with matchPat := some t } rest) ∧
    (∀ pa : ParsedArguments, parseLoop .base pa ["--match"] =
      .errExit .matchLongMissingArg true) ∧
    (∀ (pa : ParsedArguments) (t : String) (rest : List String),
      parseLoop .base pa ("-m" :: t :: rest) =
        parseLoop .base { pa with matchPat := some t } rest) ∧
    (∀ pa : ParsedArguments, parseLoop .base pa ["-m"] =
      .errExit .matchShortMissingArg true) ∧
    parseArguments ["play-music", "--match", "a", "-m", "b", "d"] =
      .ok { programName := some "play-music", matchPat := some "b",
            dirs := ["d"] } := by
  refine ⟨?_, ?_, ?_, ?_, by decide⟩
  · intro pa t rest
    cases rest <;> rfl
  · intro pa; rfl
  · intro pa t rest; rfl
  · intro pa; rfl

/-- C6 counterexample: the unknown-long-option fatal error (lines 403-406)
prints its diagnostic and exits without the short-help hint, so the claim
that every malformed input also gets the hint is false. -/
theorem parseArguments_unknownLong_no_hint :
    parseArguments ["play-music", "--frobnicate"] =
      .errExit (.unknownLongOption "--frobnicate") false := by decide

/-- C6 (amended): every malformed input makes the parser exit non-zero
after emitting its usage diagnostic to standard error; the short-help hint
accompanies every such diagnostic except the unknown-long-option one,
which exits after the diagnostic alone. -/
theorem parseArguments_error_emissions (argv : List String) (e : ParseError)
    (sh : Bool) (h : parseArguments argv = .errExit e sh) :
    sh = !(isUnknownLong e) := by
  cases argv with
  | nil => simp [parseArguments, parseLoop] at h
  | cons prog rest =>
    simp only [parseArguments] at h
    exact (parseLoop_props rest.length rest (Nat.le_refl _) .base _).2 e sh h

/-- C6 witness: a missing `-m` argument errors with the short help. -/
theorem parseArguments_error_emissions_witness :
    (true : Bool) = !(isUnknownLong ParseError.matchShortMissingArg) :=
  parseArguments_error_emissions ["play-music", "-m"] .matchShortMissingArg
    true (by decide)

/-- C7: a successfully parsed record never stores more than the fixed
maximum of 50 directories, and an input that would append a 51st directory
ends in the aborted `assert` (the out-of-bounds store branch is never
executed) rather than a silent out-of-bounds write. -/
theorem parseArguments_directories_bounded :
    (∀ (argv : List String) (r : ParsedArguments),
      parseArguments argv = .ok r → r.dirs.length ≤ maxDirectories) ∧
    parseArguments ("play-music" :: List.replicate 51 "d") = .assertFail := by
  constructor
  · intro argv r h
    cases argv with
    | nil =>
      simp only [parseArguments, parseLoop] at h
      cases h
      decide
    | cons prog rest =>
      simp only [parseArguments] at h
      exact (parseLoop_props rest.length rest (Nat.le_refl _) .base _).1 r h
        (by simp)
  · show parseLoop .base { programName := some "play-music" }
      (List.replicate 51 "d") = .assertFail
    apply parseLoop_overflow
    · simp [maxDirectories]
    · simp [maxDirectories]

/-- C7 witness at a concrete two-directory parse. -/
theorem parseArguments_directories_bounded_witness :
    ({ programName := some "play-music", dirs := ["dir1", "dir2"] } :
      ParsedArguments).dirs.length ≤ maxDirectories :=
  parseArguments_directories_bounded.1 ["play-music", "dir1", "dir2"] _ (by decide)

/-- C8: the child argv is the program name in slot 0, the supplied
arguments in order, and the terminating `NULL` sentinel; in this program
each track launch passes exactly one positional argument, so the exec argv
is `["mpv", path, NULL]`. -/
theorem runCommandArgv_nullTerminated :
    (∀ (program : String) (arguments : List String),
      runCommandArgv program arguments =
        some program :: arguments.map some ++ [none]) ∧
    (∀ path : String,
      runCommandArgv "mpv" [path] = [some "mpv", some path, none]) := by
  refine ⟨runCommandArgv_shape, fun path => ?_⟩
  rw [runCommandArgv_shape]
  rfl

/-- C9: the backward scan itself stays inside the string, but for a
non-empty name with neither `'.'` nor `'/'` the subsequent extension
comparison starts one byte before the buffer — the check does not return
`false` in-bounds as claimed; it performs an out-of-bounds read (the
`none` of the core embedding). -/
theorem isMusicFile_scan_inBounds_comparison_oob :
    (∀ name : List Char, extensionScan name name.length ≠ .oobRead) ∧
    (∀ name : List Char, name ≠ [] → (∀ c ∈ name, ¬(c = '.' ∨ c = '/')) →
      isMusicFileCore name = none) := by
  constructor
  · intro name
    exact extensionScan_ne_oobRead name name.length (Nat.le_refl _)
  · intro name hne hall
    have hself : name.reverse.takeWhile notSep = name.reverse := by
      apply List.takeWhile_eq_self_iff.mpr
      intro c hc
      simp [notSep, hall c (List.mem_reverse.mp hc)]
    have hlen : (name.reverse.takeWhile notSep).length = name.length := by
      rw [hself]
      simp
    simp [isMusicFileCore, extensionScan_eq_takeWhile, hlen]

/-- C9 witness: the filename "mp3" reaches the out-of-bounds comparison. -/
theorem isMusicFile_oob_witness :
    extensionScan "mp3".toList "mp3".toList.length ≠ .oobRead ∧
    isMusicFileCore "mp3".toList = none := by
  have h := isMusicFile_scan_inBounds_comparison_oob
  exact ⟨h.1 "mp3".toList, h.2 "mp3".toList (by decide) (by decide)⟩

/-- C3: the process exits 0 exactly on help or normal completion (clock
read OK, parse OK, directories present, regex compiles, all directories
readable, at least one song, `--no-repeat` set, and no `fork` failure in
the single pass); every exit status is 0 or 1; and each of the listed
error situations — fatal parse error, zero directories, failed regex
compilation, unopenable directory, empty playlist after filtering, and a
`fork` failure on a performed call — exits with status 1.  The embedding's
unreachable branch is never taken. -/
theorem mainRun_exit_codes (env : Env) (argv : List String) :
    (mainRun env argv = .exited 0 ↔
      env.clockOk = true ∧
        (parseArguments argv = .helpExit ∨ NormalCompletion env argv)) ∧
    (∀ c, mainRun env argv = .exited c → c = 0 ∨ c = 1) ∧
    (ParseFailure env argv → mainRun env argv = .exited 1) ∧
    (MissingDirectories env argv → mainRun env argv = .exited 1) ∧
    (RegexFailure env argv → mainRun env argv = .exited 1) ∧
    (DirOpenFailure env argv → mainRun env argv = .exited 1) ∧
    (EmptyPlaylist env argv → mainRun env argv = .exited 1) ∧
    (SpawnFailure env argv → mainRun env argv = .exited 1) ∧
    mainRun env argv ≠ .ub := by
  refine ⟨⟨?_, ?_⟩, ?_, ?_, ?_, ?_, ?_, ?_, ?_, ?_⟩
  · -- exit 0 only on help or normal completion
    intro h
    cases hck : env.clockOk with
    | false =>
      have h1 : mainRun env argv = .exited 1 := by simp [mainRun, hck]
      rw [h1] at h
      simp at h
    | true =>
      cases hp : parseArguments argv with
      | helpExit => exact ⟨rfl, Or.inl rfl⟩
      | errExit e sh =>
        have h1 : mainRun env argv = .exited 1 := by simp [mainRun, hck, hp]
        rw [h1] at h
        simp at h
      | assertFail =>
        have h1 : mainRun env argv = .aborted := by simp [mainRun, hck, hp]
        rw [h1] at h
        simp at h
      | ok pa =>
        by_cases hd : pa.dirs.length = 0
        · have h1 : mainRun env argv = .exited 1 := by
            simp [mainRun, hck, hp, hd]
          rw [h1] at h
          simp at h
        · cases hm : matcherOf env pa.matchPat with
          | none =>
            have h1 : mainRun env argv = .exited 1 := by
              simp [mainRun, hck, hp, hd, hm]
            rw [h1] at h
            simp at h
          | some matcher =>
            cases hb : buildPlaylist env matcher pa.dirs with
            | none =>
              have h1 : mainRun env argv = .exited 1 := by
                simp [mainRun, hck, hp, hd, hm, hb]
              rw [h1] at h
              simp at h
            | some playlist =>
              have hre : ReachedBuild env argv pa matcher :=
                ⟨hck, hp, fun h0 => hd (by simp [h0]), hm⟩
              rw [mainRun_reached env argv pa matcher playlist hre hb] at h
              by_cases hlen : playlist.length = 0
              · rw [if_pos hlen] at h
                simp at h
              · rw [if_neg hlen] at h
                cases hff : env.firstForkFail with
                | none =>
                  cases hdr : pa.dontRepeat with
                  | false => simp [playbackOutcome, hff, hdr] at h
                  | true =>
                    refine ⟨rfl,
                      Or.inr ⟨pa, matcher, playlist, hre, hb, ?_, hdr, ?_⟩⟩
                    · intro h0
                      exact hlen (by simp [h0])
                    · intro k hk
                      rw [hff] at hk
                      cases hk
                | some k =>
                  cases hdr : pa.dontRepeat with
                  | false => simp [playbackOutcome, hff, hdr] at h
                  | true =>
                    by_cases hklt : k < playlist.length
                    · simp [playbackOutcome, hff, hdr, hklt] at h
                    · refine ⟨rfl,
                        Or.inr ⟨pa, matcher, playlist, hre, hb, ?_, hdr, ?_⟩⟩
                      · intro h0
                        exact hlen (by simp [h0])
                      · intro k' hk'
                        rw [hff] at hk'
                        cases hk'
                        omega
  · -- help or normal completion gives exit 0
    rintro ⟨hck, hhelp | hnc⟩
    · simp [mainRun, hck, hhelp]
    · obtain ⟨pa, matcher, playlist, hre, hb, hne, hdr, hfork⟩ := hnc
      rw [mainRun_reached env argv pa matcher playlist hre hb]
      have hlen : ¬ (playlist.length = 0) :=
        fun h0 => hne (List.eq_nil_of_length_eq_zero h0)
      rw [if_neg hlen]
      cases hff : env.firstForkFail with
      | none => simp [playbackOutcome, hff, hdr]
      | some k =>
        have hnk : ¬ (k < playlist.length) := by
          have := hfork k hff
          omega
        simp [playbackOutcome, hff, hdr, hnk]
  · -- every exit status is 0 or 1
    intro c hc
    rcases mainRun_outcomes env argv with h | h | h | h <;> rw [h] at hc
    · cases hc; exact Or.inl rfl
    · cases hc; exact Or.inr rfl
    · cases hc
    · cases hc
  · -- fatal parse error
    rintro ⟨hck, e, sh, hp⟩
    simp [mainRun, hck, hp]
  · -- zero directories
    rintro ⟨hck, pa, hp, hd⟩
    simp [mainRun, hck, hp, hd]
  · -- regex compilation failure
    rintro ⟨hck, pa, hp, hdne, hm⟩
    have hlen : ¬ (pa.dirs.length = 0) :=
      fun h0 => hdne (List.eq_nil_of_length_eq_zero h0)
    simp [mainRun, hck, hp, hlen, hm]
  · -- directory-open failure
    rintro ⟨pa, matcher, ⟨hck, hp, hdne, hm⟩, hb⟩
    have hlen : ¬ (pa.dirs.length = 0) :=
      fun h0 => hdne (List.eq_nil_of_length_eq_zero h0)
    simp [mainRun, hck, hp, hlen, hm, hb]
  · -- empty playlist after filtering
    rintro ⟨pa, matcher, hr, hb⟩
    rw [mainRun_reached env argv pa matcher [] hr hb]
    simp
  · -- fork failure on a performed call
    rintro ⟨pa, matcher, playlist, hr, hb, hne, k, hk, hklt⟩
    rw [mainRun_reached env argv pa matcher playlist hr hb]
    have hlen : ¬ (playlist.length = 0) :=
      fun h0 => hne (List.eq_nil_of_length_eq_zero h0)
    rw [if_neg hlen]
    cases hdr : pa.dontRepeat with
    | false => simp [playbackOutcome, hk, hdr]
    | true => simp [playbackOutcome, hk, hdr, hklt hdr]
  · -- the unreachable branch is never taken
    intro habs
    rcases mainRun_outcomes env argv with h | h | h | h <;> rw [h] at habs <;>
      cases habs

/-- C3 witness: in a concrete healthy environment, a help invocation exits
0 and an invocation without directories exits 1. -/
theorem mainRun_exit_codes_witness :
    mainRun { clockOk := true, oob := fun _ => false,
              readDir := fun _ => some ["a.mp3"],
              regcomp := fun _ => some (fun _ => true), rand := fun _ => 0,
              firstForkFail := none } ["play-music", "-h", "ignored"] =
      .exited 0 ∧
    mainRun { clockOk := true, oob := fun _ => false,
              readDir := fun _ => some ["a.mp3"],
              regcomp := fun _ => some (fun _ => true), rand := fun _ => 0,
              firstForkFail := none } ["play-music"] = .exited 1 := by
  constructor
  · exact (mainRun_exit_codes _ _).1.mpr ⟨rfl, Or.inl (by decide)⟩
  · exact (mainRun_exit_codes _ _).2.2.2.1
      ⟨rfl, { programName := some "play-music" }, by decide, rfl⟩
